import Mathlib

/-!
Verification development for the compresstimator library (src/src/lib.rs).

Modelling conventions:
* Machine integers (u64) are modelled as Nat.  Rust panics (integer division
  by zero) are modelled by an explicit result constructor.
* f32 arithmetic is modelled by exact rational arithmetic over Rat.  The f32
  expression (a as f32 / b as f32).min(1.0) is modelled by ratioOf: when the
  divisor is 0 the Rust expression is inf.min(1.0) or NaN.min(1.0), both of
  which evaluate to 1.0 under f32::min, so ratioOf returns 1 in that case.
  The Rust cast (q : f32) as u64 truncates toward zero and saturates below
  at 0 (NaN maps to 0); on exact rationals this is toU64.
* The lz4 encoder is abstracted as a deterministic total function
  comp : List Nat -> Nat, giving the output size the encoder pipes into the
  WriteCount sink for a given input byte sequence.  Streams are lists of
  bytes together with an explicit current position pos; SeekFrom::Start(o)
  addresses absolute offset o of the underlying resource.
-/

/-- Model of the f32 to u64 cast used at the call site of sample_size:
truncation toward zero, saturating at 0 for negative values. -/
def toU64 (q : ℚ) : ℕ := ⌊q⌋.toNat

/-- A statistical confidence level, 80 - 99 percent (enum Confidence). -/
inductive Confidence where
  | C80
  | C85
  | C90
  | C95
  | C99
deriving DecidableEq

/-- Embeds impl From of Confidence for f32: the z-score table. -/
def zScore : Confidence → ℚ
  | .C80 => 1.28
  | .C85 => 1.44
  | .C90 => 1.65
  | .C95 => 1.96
  | .C99 => 2.58

/-- The intermediate n_naught of fn sample_size: 0.25 * (z / moe)^2. -/
def nNaught (moe : ℚ) (confidence : Confidence) : ℚ :=
  0.25 * (zScore confidence / moe) ^ 2

/-- The quotient whose ceiling fn sample_size returns:
(pop * n_naught) / (n_naught + pop - 1). -/
def cochran (pop : ℕ) (moe : ℚ) (confidence : Confidence) : ℚ :=
  ((pop : ℚ) * nNaught moe confidence) / (nNaught moe confidence + (pop : ℚ) - 1)

/-- Embeds fn sample_size (src/src/lib.rs lines 54-58): the Cochran
sample-size formula, returning the ceiling as an f32-valued integer. -/
def sample_size (pop : ℕ) (moe : ℚ) (confidence : Confidence) : ℚ :=
  ((⌈cochran pop moe confidence⌉ : ℤ) : ℚ)

/-- Embeds struct Compresstimator: block size, error margin, confidence. -/
structure Compresstimator where
  block_size : ℕ
  error_margin : ℚ
  confidence : Confidence

def DEFAULT_BLOCK_SIZE : ℕ := 4096

/-- Embeds impl Default for Compresstimator. -/
def Compresstimator.default : Compresstimator :=
  { block_size := DEFAULT_BLOCK_SIZE, error_margin := 0.1, confidence := .C95 }

/-- Embeds Compresstimator::new, an alias for default(). -/
def Compresstimator.new : Compresstimator := Compresstimator.default

/-- Embeds Compresstimator::with_block_size: no validation of the argument. -/
def Compresstimator.with_block_size (block_size : ℕ) : Compresstimator :=
  { Compresstimator.default with block_size := block_size }

/-- Embeds the Compresstimator::block_size mutator (renamed to avoid the
clash with the field projection): no validation of the argument. -/
def Compresstimator.set_block_size (c : Compresstimator) (block_size : ℕ) :
    Compresstimator :=
  { c with block_size := block_size }

/-- Embeds the Compresstimator::error_margin mutator.  The Rust code asserts
margin > 0.0 && margin < 1.0 before the assignment; the panic on a failed
assertion is modelled by none, in which case no assignment took place. -/
def Compresstimator.set_error_margin (c : Compresstimator) (margin : ℚ) :
    Option Compresstimator :=
  if 0 < margin ∧ margin < 1 then some { c with error_margin := margin } else none

/-- Embeds the Compresstimator::confidence_level mutator. -/
def Compresstimator.confidence_level (c : Compresstimator) (confidence : Confidence) :
    Compresstimator :=
  { c with confidence := confidence }

/-- Models (output.written as f32 / written as f32).min(1.0) over exact
rationals.  When written = 0 the f32 quotient is inf (or NaN when the
compressed count is also 0) and f32::min returns 1.0 either way. -/
def ratioOf (compressed written : ℕ) : ℚ :=
  if written = 0 then 1 else min ((compressed : ℚ) / (written : ℚ)) 1

/-- Embeds Compresstimator::base_truth (src/src/lib.rs lines 133-140):
compress the whole input and return the achieved ratio. -/
def base_truth (comp : List ℕ → ℕ) (input : List ℕ) : ℚ :=
  ratioOf (comp input) input.length

/-- Outcome of compresstimate_len: a returned ratio, a propagated I/O error
from read_exact, or a Rust panic (division by zero when block_size = 0). -/
inductive EstResult where
  | ok (r : ℚ)
  | readError
  | panicked
deriving DecidableEq

/-- let blocks = len / self.block_size (src/src/lib.rs line 161). -/
def blocksOf (c : Compresstimator) (len : ℕ) : ℕ := len / c.block_size

/-- let samples = sample_size(blocks, ...) as u64 (src/src/lib.rs line 162). -/
def samplesOf (c : Compresstimator) (len : ℕ) : ℕ :=
  toU64 (sample_size (blocksOf c len) c.error_margin c.confidence)

/-- let step = self.block_size * (blocks / samples) (src/src/lib.rs line 170). -/
def stepOf (c : Compresstimator) (len : ℕ) : ℕ :=
  c.block_size * (blocksOf c len / samplesOf c len)

/-- Embeds the sampling loop (src/src/lib.rs lines 174-178): for the k
remaining iterations starting at loop index i, seek to absolute offset
step * i, read exactly bs bytes (read_exact fails when fewer than bs bytes
exist at that offset), and collect everything written to the encoder. -/
def readBlocksAux (data : List ℕ) (bs step : ℕ) : ℕ → ℕ → Option (List ℕ)
  | _, 0 => some []
  | i, k + 1 =>
    if step * i + bs ≤ data.length then
      match readBlocksAux data bs step (i + 1) k with
      | some rest => some ((data.drop (step * i)).take bs ++ rest)
      | none => none
    else
      none

/-- The exact byte sequence compresstimate_len feeds to the encoder, none
when the function panics or a sampled read_exact fails.  In the full-read
branch io::copy(input.take(len)) reads from the current position pos; in the
sampling branch the seeks use SeekFrom::Start, i.e. absolute offsets. -/
def sampledInput (c : Compresstimator) (data : List ℕ) (pos len : ℕ) :
    Option (List ℕ) :=
  if c.block_size = 0 then none
  else if samplesOf c len = 0 ∨ len < samplesOf c len * c.block_size * 4 then
    some ((data.drop pos).take len)
  else
    readBlocksAux data c.block_size (stepOf c len) 0 (samplesOf c len)

/-- The absolute offsets the sampling branch seeks to: step * i for
i in 0..samples. -/
def sampleOffsets (c : Compresstimator) (len : ℕ) : List ℕ :=
  (List.range (samplesOf c len)).map (fun i => stepOf c len * i)

/-- Embeds Compresstimator::compresstimate_len (src/src/lib.rs lines
157-184) over a stream modelled as full contents data plus current
position pos.  The unguarded len / self.block_size panics in Rust when
block_size = 0; in the full-read branch written is the number of bytes
io::copy transferred; in the sampling branch written = block_size * samples
is set before the loop and each iteration seeks to the absolute offset
step * i and reads exactly block_size bytes. -/
def compresstimate_len (comp : List ℕ → ℕ) (c : Compresstimator)
    (data : List ℕ) (pos len : ℕ) : EstResult :=
  if c.block_size = 0 then .panicked
  else if samplesOf c len = 0 ∨ len < samplesOf c len * c.block_size * 4 then
    .ok (ratioOf (comp ((data.drop pos).take len)) ((data.drop pos).take len).length)
  else
    match readBlocksAux data c.block_size (stepOf c len) 0 (samplesOf c len) with
    | some fed => .ok (ratioOf (comp fed) (c.block_size * samplesOf c len))
    | none => .readError

/-- Embeds Compresstimator::compresstimate (src/src/lib.rs lines 146-153):
measure the remaining length by seeking to the end, restore the position,
and delegate to compresstimate_len with len = end - pos. -/
def compresstimate (comp : List ℕ → ℕ) (c : Compresstimator)
    (data : List ℕ) (pos : ℕ) : EstResult :=
  compresstimate_len comp c data pos (data.length - pos)

/-! ### Shared lemmas -/

theorem zScore_pos (c : Confidence) : 0 < zScore c := by
  cases c <;> norm_num [zScore]

theorem nNaught_nonneg (moe : ℚ) (c : Confidence) : 0 ≤ nNaught moe c := by
  unfold nNaught
  positivity

theorem cochran_pop_zero (moe : ℚ) (c : Confidence) : cochran 0 moe c = 0 := by
  simp [cochran]

theorem sample_size_pop_zero (moe : ℚ) (c : Confidence) : sample_size 0 moe c = 0 := by
  simp [sample_size, cochran_pop_zero]

theorem toU64_intCast (n : ℤ) : toU64 ((n : ℤ) : ℚ) = n.toNat := by
  simp [toU64]

theorem samplesOf_eq_ceil (c : Compresstimator) (len : ℕ) :
    samplesOf c len = (⌈cochran (blocksOf c len) c.error_margin c.confidence⌉).toNat := by
  simp [samplesOf, sample_size, toU64]

theorem samplesOf_of_blocks_zero (c : Compresstimator) (len : ℕ)
    (h : blocksOf c len = 0) : samplesOf c len = 0 := by
  rw [samplesOf_eq_ceil, h, cochran_pop_zero]
  simp

theorem samplesOf_eval (c : Compresstimator) (len n : ℕ)
    (h1 : (n : ℚ) - 1 < cochran (blocksOf c len) c.error_margin c.confidence)
    (h2 : cochran (blocksOf c len) c.error_margin c.confidence ≤ (n : ℚ)) :
    samplesOf c len = n := by
  rw [samplesOf_eq_ceil]
  have hc : ⌈cochran (blocksOf c len) c.error_margin c.confidence⌉ = (n : ℤ) := by
    rw [Int.ceil_eq_iff]
    exact ⟨by push_cast; exact h1, by push_cast; exact h2⟩
  rw [hc]
  simp

theorem ratioOf_nonneg (a b : ℕ) : 0 ≤ ratioOf a b := by
  unfold ratioOf
  split
  · norm_num
  · exact le_min (by positivity) (by norm_num)

theorem ratioOf_le_one (a b : ℕ) : ratioOf a b ≤ 1 := by
  unfold ratioOf
  split
  · exact le_refl 1
  · exact min_le_right _ _

theorem full_read_empty (comp : List ℕ → ℕ) (c : Compresstimator)
    (data : List ℕ) (pos : ℕ) (hbs : c.block_size ≠ 0) :
    compresstimate_len comp c data pos 0 = .ok 1 := by
  have hb : blocksOf c 0 = 0 := by simp [blocksOf]
  have hs : samplesOf c 0 = 0 := samplesOf_of_blocks_zero c 0 hb
  unfold compresstimate_len
  rw [if_neg hbs, if_pos (Or.inl hs)]
  simp [ratioOf]

/-! ### Claims -/

/-- C3: for every valid configuration (positive block size), compresstimate_len
on a zero-length input returns exactly the ratio 1, with no division-by-zero
artifact. -/
theorem c3_zero_length_returns_one (comp : List ℕ → ℕ) (c : Compresstimator)
    (data : List ℕ) (pos : ℕ) (hbs : 0 < c.block_size) :
    compresstimate_len comp c data pos 0 = .ok 1 :=
  full_read_empty comp c data pos (Nat.pos_iff_ne_zero.mp hbs)

/-- Witness for C3 at the default configuration on a concrete stream. -/
theorem c3_witness :
    compresstimate_len (fun l => l.length) Compresstimator.default [3, 1] 0 0 = .ok 1 :=
  c3_zero_length_returns_one (fun l => l.length) Compresstimator.default [3, 1] 0
    (by norm_num [Compresstimator.default, DEFAULT_BLOCK_SIZE])

/-- Modelled from the spec: the z-score table of section 3 ("each mapping to
a fixed z-score constant (1.28, 1.44, 1.65, 1.96, 2.58)"), written from the
spec text for comparison with the implementation table zScore. -/
def zScoreSpec : Confidence → ℚ
  | .C80 => 1.28
  | .C85 => 1.44
  | .C90 => 1.65
  | .C95 => 1.96
  | .C99 => 2.58

/-- Modelled from the spec: the Cochran formula of section 4.1,
n = ceil((population * n0) / (n0 + population - 1)) with
n0 = 0.25 * (z / margin_of_error)^2, written from the spec text for
comparison with the implementation sample_size. -/
def sampleSizeSpec (pop : ℕ) (moe : ℚ) (confidence : Confidence) : ℚ :=
  ((⌈((pop : ℚ) * (0.25 * (zScoreSpec confidence / moe) ^ 2)) /
      ((0.25 * (zScoreSpec confidence / moe) ^ 2) + (pop : ℚ) - 1)⌉ : ℤ) : ℚ)

/-- C5: for every population, margin in (0,1) and confidence level,
sample_size computes exactly the Cochran expression of the spec with the
spec's z-score table, and the population 0 case yields 0 (also after the
u64 cast at the call site). -/
theorem c5_sample_size_formula (pop : ℕ) (moe : ℚ) (confidence : Confidence)
    (hm : 0 < moe ∧ moe < 1) :
    sample_size pop moe confidence = sampleSizeSpec pop moe confidence ∧
    sample_size 0 moe confidence = 0 ∧
    toU64 (sample_size 0 moe confidence) = 0 := by
  refine ⟨?_, sample_size_pop_zero moe confidence, ?_⟩
  · cases confidence <;> rfl
  · rw [sample_size_pop_zero]
    simp [toU64]

/-- Witness for C5 at population 7, margin 1/2, confidence 90 percent. -/
theorem c5_witness :
    sample_size 7 (1/2) .C90 = sampleSizeSpec 7 (1/2) .C90 ∧
    sample_size 0 (1/2) .C90 = 0 ∧
    toU64 (sample_size 0 (1/2) .C90) = 0 :=
  c5_sample_size_formula 7 (1/2) .C90 (by norm_num)

/-- C6: the error_margin mutator fails exactly when the supplied margin is
not strictly between 0 and 1, before any estimation; on failure no
assignment happened, and on success the stored margin equals the supplied
value while the other fields are untouched. -/
theorem c6_error_margin_guard (c : Compresstimator) (m : ℚ) :
    (c.set_error_margin m = none ↔ ¬(0 < m ∧ m < 1)) ∧
    (∀ r, c.set_error_margin m = some r →
      r.error_margin = m ∧ r.block_size = c.block_size ∧ r.confidence = c.confidence) := by
  unfold Compresstimator.set_error_margin
  constructor
  · split <;> simp_all
  · intro r hr
    split at hr
    · injection hr with h
      subst h
      exact ⟨rfl, rfl, rfl⟩
    · exact absurd hr (by simp)

/-- Witness for C6: margin 3/2 is rejected, margin 1/2 is stored. -/
theorem c6_witness :
    Compresstimator.default.set_error_margin (3/2) = none ∧
    ({ Compresstimator.default with error_margin := 1/2 } : Compresstimator).error_margin = 1/2 := by
  have h : Compresstimator.default.set_error_margin (1/2) =
      some { Compresstimator.default with error_margin := 1/2 } := by
    rw [Compresstimator.set_error_margin, if_pos (by norm_num)]
  exact ⟨(c6_error_margin_guard Compresstimator.default (3/2)).1.mpr (by norm_num),
    ((c6_error_margin_guard Compresstimator.default (1/2)).2 _ h).1⟩

/-- C7: with a fixed configuration and deterministic compressor, two calls
of compresstimate_len on identical content and identical length return
identical results and select identical block offsets; no randomness enters
block selection. -/
theorem c7_deterministic (comp : List ℕ → ℕ) (c : Compresstimator)
    (d1 d2 : List ℕ) (pos l1 l2 : ℕ) (hd : d1 = d2) (hl : l1 = l2) :
    compresstimate_len comp c d1 pos l1 = compresstimate_len comp c d2 pos l2 ∧
    sampleOffsets c l1 = sampleOffsets c l2 := by
  subst hd
  subst hl
  exact ⟨rfl, rfl⟩

/-- Witness for C7 on a concrete stream. -/
theorem c7_witness :
    compresstimate_len (fun l => l.length) Compresstimator.default [9, 9] 0 2 =
      compresstimate_len (fun l => l.length) Compresstimator.default [9, 9] 0 2 ∧
    sampleOffsets Compresstimator.default 2 = sampleOffsets Compresstimator.default 2 :=
  c7_deterministic (fun l => l.length) Compresstimator.default [9, 9] [9, 9] 0 2 2 rfl rfl

/-- C9: block size 0 passes both constructors unvalidated, and
compresstimate_len then hits the unguarded division len / block_size, a
Rust panic rather than an I/O error; a positive block size never panics. -/
theorem c9_block_size_zero (comp : List ℕ → ℕ) (data : List ℕ) (pos len : ℕ)
    (c0 c1 : Compresstimator) (h0 : c0.block_size = 0) (h1 : 0 < c1.block_size) :
    (Compresstimator.with_block_size 0).block_size = 0 ∧
    (c0.set_block_size 0).block_size = 0 ∧
    compresstimate_len comp c0 data pos len = .panicked ∧
    compresstimate_len comp c1 data pos len ≠ .panicked := by
  refine ⟨rfl, rfl, ?_, ?_⟩
  · unfold compresstimate_len
    rw [if_pos h0]
  · unfold compresstimate_len
    rw [if_neg (Nat.pos_iff_ne_zero.mp h1)]
    split
    · simp
    · split <;> simp

/-- Witness for C9 with block size 0 versus the default block size. -/
theorem c9_witness :
    (Compresstimator.with_block_size 0).block_size = 0 ∧
    ((Compresstimator.with_block_size 0).set_block_size 0).block_size = 0 ∧
    compresstimate_len (fun l => l.length) (Compresstimator.with_block_size 0) [4] 0 1 = .panicked ∧
    compresstimate_len (fun l => l.length) Compresstimator.default [4] 0 1 ≠ .panicked :=
  c9_block_size_zero (fun l => l.length) [4] 0 1 (Compresstimator.with_block_size 0)
    Compresstimator.default rfl (by norm_num [Compresstimator.default, DEFAULT_BLOCK_SIZE])

/-- C1: whenever samples = 0 or len < samples * block_size * 4, the bytes
fed to the compressor are exactly the len bytes read sequentially from the
current position, and the returned ratio equals the exhaustive base_truth
ratio over those same bytes. -/
theorem c1_full_read_matches_base_truth (comp : List ℕ → ℕ) (c : Compresstimator)
    (data : List ℕ) (pos len : ℕ) (hbs : c.block_size ≠ 0)
    (hfull : samplesOf c len = 0 ∨ len < samplesOf c len * c.block_size * 4) :
    sampledInput c data pos len = some ((data.drop pos).take len) ∧
    compresstimate_len comp c data pos len =
      .ok (base_truth comp ((data.drop pos).take len)) := by
  unfold sampledInput compresstimate_len base_truth
  rw [if_neg hbs, if_neg hbs, if_pos hfull, if_pos hfull]
  exact ⟨rfl, rfl⟩

/-- Witness for C1: a 2-byte stream under the default configuration has 0
blocks, hence 0 samples, and the whole stream is read. -/
theorem c1_witness :
    sampledInput Compresstimator.default [5, 6] 0 2 = some (([5, 6].drop 0).take 2) ∧
    compresstimate_len (fun l => l.length) Compresstimator.default [5, 6] 0 2 =
      .ok (base_truth (fun l => l.length) (([5, 6].drop 0).take 2)) :=
  c1_full_read_matches_base_truth (fun l => l.length) Compresstimator.default [5, 6] 0 2
    (by norm_num [Compresstimator.default, DEFAULT_BLOCK_SIZE])
    (Or.inl (samplesOf_of_blocks_zero Compresstimator.default 2 (by rfl)))

/-- C2: every successful result of compresstimate_len, and every base_truth
ratio, lies in the closed interval from 0 to 1, even when the compressor
expands its input. -/
theorem c2_ratio_bounds (comp : List ℕ → ℕ) (input : List ℕ) (c : Compresstimator)
    (data : List ℕ) (pos len : ℕ) (r : ℚ)
    (h : compresstimate_len comp c data pos len = .ok r) :
    (0 ≤ base_truth comp input ∧ base_truth comp input ≤ 1) ∧ 0 ≤ r ∧ r ≤ 1 := by
  refine ⟨⟨ratioOf_nonneg _ _, ratioOf_le_one _ _⟩, ?_⟩
  unfold compresstimate_len at h
  split at h
  · exact absurd h (by simp)
  · split at h
    · injection h with h
      subst h
      exact ⟨ratioOf_nonneg _ _, ratioOf_le_one _ _⟩
    · split at h
      · injection h with h
        subst h
        exact ⟨ratioOf_nonneg _ _, ratioOf_le_one _ _⟩
      · exact absurd h (by simp)

/-- Witness for C2 with an expanding compressor (output larger than input)
on a concrete call. -/
theorem c2_witness :
    (0 ≤ base_truth (fun l => l.length + 100) [1, 2] ∧
      base_truth (fun l => l.length + 100) [1, 2] ≤ 1) ∧
    (0 : ℚ) ≤ 1 ∧ (1 : ℚ) ≤ 1 :=
  c2_ratio_bounds (fun l => l.length + 100) [1, 2] Compresstimator.default [] 0 0 1
    (full_read_empty (fun l => l.length + 100) Compresstimator.default [] 0
      (by norm_num [Compresstimator.default, DEFAULT_BLOCK_SIZE]))

theorem cochran_mono_num (pop : ℕ) {a b : ℚ} (ha : 0 ≤ a) (hab : a ≤ b) :
    ((pop : ℚ) * a) / (a + (pop : ℚ) - 1) ≤ ((pop : ℚ) * b) / (b + (pop : ℚ) - 1) := by
  rcases Nat.eq_zero_or_pos pop with hp | hp
  · subst hp
    simp
  · have hp1 : (1 : ℚ) ≤ (pop : ℚ) := by exact_mod_cast hp
    have hb0 : 0 ≤ b := le_trans ha hab
    rcases eq_or_lt_of_le ha with h0 | h0
    · rw [← h0, mul_zero, zero_div]
      exact div_nonneg (by positivity) (by linarith)
    · have hda : 0 < a + (pop : ℚ) - 1 := by linarith
      have hdb : 0 < b + (pop : ℚ) - 1 := by linarith
      rw [div_le_div_iff hda hdb]
      nlinarith [mul_nonneg (mul_nonneg (le_trans zero_le_one hp1) (by linarith : (0:ℚ) ≤ (pop : ℚ) - 1)) (by linarith : (0:ℚ) ≤ b - a)]

theorem nNaught_anti (confidence : Confidence) {m1 m2 : ℚ} (h1 : 0 < m1) (h12 : m1 ≤ m2) :
    nNaught m2 confidence ≤ nNaught m1 confidence := by
  unfold nNaught
  have hz := zScore_pos confidence
  have h2 : 0 < m2 := lt_of_lt_of_le h1 h12
  have hd : zScore confidence / m2 ≤ zScore confidence / m1 := by
    gcongr
  have hsq : (zScore confidence / m2) ^ 2 ≤ (zScore confidence / m1) ^ 2 :=
    pow_le_pow_left (div_nonneg hz.le (le_trans h1.le h12)) hd 2
  linarith

theorem nNaught_mono_z {c1 c2 : Confidence} (m : ℚ) (hm : 0 < m)
    (hz : zScore c1 ≤ zScore c2) : nNaught m c1 ≤ nNaught m c2 := by
  unfold nNaught
  have hd : zScore c1 / m ≤ zScore c2 / m := (div_le_div_right hm).mpr hz
  have hsq : (zScore c1 / m) ^ 2 ≤ (zScore c2 / m) ^ 2 :=
    pow_le_pow_left (div_nonneg (zScore_pos c1).le hm.le) hd 2
  linarith

theorem toU64_mono {a b : ℚ} (h : a ≤ b) : toU64 a ≤ toU64 b :=
  Int.toNat_le_toNat (Int.floor_mono h)

theorem sample_size_anti_moe (pop : ℕ) (confidence : Confidence) {m1 m2 : ℚ}
    (h1 : 0 < m1) (h12 : m1 ≤ m2) :
    sample_size pop m2 confidence ≤ sample_size pop m1 confidence := by
  unfold sample_size
  have hc : cochran pop m2 confidence ≤ cochran pop m1 confidence :=
    cochran_mono_num pop (nNaught_nonneg m2 confidence) (nNaught_anti confidence h1 h12)
  exact_mod_cast Int.ceil_mono hc

theorem sample_size_mono_conf (pop : ℕ) {c1 c2 : Confidence} (m : ℚ) (hm : 0 < m)
    (hz : zScore c1 ≤ zScore c2) :
    sample_size pop m c1 ≤ sample_size pop m c2 := by
  unfold sample_size
  have hc : cochran pop m c1 ≤ cochran pop m c2 :=
    cochran_mono_num pop (nNaught_nonneg m c1) (nNaught_mono_z m hm hz)
  exact_mod_cast Int.ceil_mono hc

/-- C8: for a fixed population and confidence, a larger margin of error in
(0,1) never yields a larger sample size; for a fixed population and margin,
a higher confidence level (larger z-score) never yields a smaller sample
size.  Stated both on the f32 value sample_size returns and on the u64 the
caller casts it to. -/
theorem c8_sample_size_monotone (pop : ℕ) (confidence c1 c2 : Confidence)
    (m m1 m2 : ℚ) (hm1 : 0 < m1) (h12 : m1 ≤ m2) (hm2 : m2 < 1)
    (hm : 0 < m) (hm' : m < 1) (hz : zScore c1 ≤ zScore c2) :
    sample_size pop m2 confidence ≤ sample_size pop m1 confidence ∧
    sample_size pop m c1 ≤ sample_size pop m c2 ∧
    toU64 (sample_size pop m2 confidence) ≤ toU64 (sample_size pop m1 confidence) ∧
    toU64 (sample_size pop m c1) ≤ toU64 (sample_size pop m c2) :=
  ⟨sample_size_anti_moe pop confidence hm1 h12,
   sample_size_mono_conf pop m hm hz,
   toU64_mono (sample_size_anti_moe pop confidence hm1 h12),
   toU64_mono (sample_size_mono_conf pop m hm hz)⟩

/-- Witness for C8 at population 100, margins 1/10 and 1/2, confidence
levels 80 and 99 percent. -/
theorem c8_witness :
    sample_size 100 (1/2) .C95 ≤ sample_size 100 (1/10) .C95 ∧
    sample_size 100 (1/10) .C80 ≤ sample_size 100 (1/10) .C99 ∧
    toU64 (sample_size 100 (1/2) .C95) ≤ toU64 (sample_size 100 (1/10) .C95) ∧
    toU64 (sample_size 100 (1/10) .C80) ≤ toU64 (sample_size 100 (1/10) .C99) :=
  c8_sample_size_monotone 100 .C95 .C80 .C99 (1/10) (1/10) (1/2)
    (by norm_num) (by norm_num) (by norm_num) (by norm_num) (by norm_num)
    (by norm_num [zScore])

theorem readBlocksAux_ok (data : List ℕ) (bs step : ℕ) :
    ∀ (k i : ℕ) (l : List ℕ), readBlocksAux data bs step i k = some l →
      l = ((List.range k).map (fun j => (data.drop (step * (i + j))).take bs)).flatten ∧
      l.length = bs * k ∧
      ∀ j, j < k → step * (i + j) + bs ≤ data.length := by
  intro k
  induction k with
  | zero =>
    intro i l h
    simp only [readBlocksAux, Option.some.injEq] at h
    subst h
    simp
  | succ k ih =>
    intro i l h
    simp only [readBlocksAux] at h
    split at h
    · rename_i hcond
      cases hrec : readBlocksAux data bs step (i + 1) k with
      | none =>
        rw [hrec] at h
        cases h
      | some rest =>
        rw [hrec] at h
        injection h with h
        obtain ⟨hrj, hrl, hrb⟩ := ih (i + 1) rest hrec
        subst h
        refine ⟨?_, ?_, ?_⟩
        · rw [List.range_succ_eq_map, List.map_cons, List.flatten_cons, List.map_map]
          have htail : rest =
              (List.map ((fun j => List.take bs (List.drop (step * (i + j)) data)) ∘ Nat.succ)
                (List.range k)).flatten := by
            have hfun : (fun j => List.take bs (List.drop (step * (i + 1 + j)) data)) =
                ((fun j => List.take bs (List.drop (step * (i + j)) data)) ∘ Nat.succ) := by
              funext j
              have hidx : i + 1 + j = i + Nat.succ j := by omega
              simp [Function.comp, hidx]
            rw [hrj, hfun]
          rw [← htail]
          norm_num
        · rw [List.length_append, hrl, List.length_take, List.length_drop]
          have hmin : min bs (data.length - step * i) = bs := by omega
          rw [hmin, Nat.mul_succ]
          omega
        · intro j hj
          cases j with
          | zero => simpa using hcond
          | succ j =>
            have hidx : i + Nat.succ j = i + 1 + j := by omega
            rw [hidx]
            exact hrb j (by omega)
    · cases h

theorem readBlocksAux_total (data : List ℕ) (bs step : ℕ) :
    ∀ (k i : ℕ), (∀ j, j < k → step * (i + j) + bs ≤ data.length) →
      ∃ l, readBlocksAux data bs step i k = some l := by
  intro k
  induction k with
  | zero =>
    intro i _
    exact ⟨[], rfl⟩
  | succ k ih =>
    intro i hb
    have h0 : step * i + bs ≤ data.length := by simpa using hb 0 (Nat.succ_pos k)
    obtain ⟨rest, hrest⟩ := ih (i + 1) (fun j hj => by
      have hidx : i + 1 + j = i + Nat.succ j := by omega
      rw [hidx]
      exact hb (Nat.succ j) (by omega))
    refine ⟨(data.drop (step * i)).take bs ++ rest, ?_⟩
    simp only [readBlocksAux]
    rw [if_pos h0, hrest]

theorem samplesOf_le_blocksOf (c : Compresstimator) (len : ℕ)
    (hs : samplesOf c len ≠ 0) : samplesOf c len ≤ blocksOf c len := by
  rw [samplesOf_eq_ceil] at hs ⊢
  have hxpos : 0 < cochran (blocksOf c len) c.error_margin c.confidence := by
    by_contra hle
    push_neg at hle
    exact hs (Int.toNat_of_nonpos (Int.ceil_le.mpr (by exact_mod_cast hle)))
  have hBpos : 0 < blocksOf c len := by
    by_contra h0
    push_neg at h0
    have hB0 : blocksOf c len = 0 := by omega
    rw [hB0, cochran_pop_zero] at hxpos
    exact lt_irrefl 0 hxpos
  have hn0 : 0 ≤ nNaught c.error_margin c.confidence := nNaught_nonneg _ _
  have hB1 : (1 : ℚ) ≤ (blocksOf c len : ℚ) := by exact_mod_cast hBpos
  have hd : 0 < nNaught c.error_margin c.confidence + (blocksOf c len : ℚ) - 1 := by
    rcases eq_or_lt_of_le (by linarith :
        (0 : ℚ) ≤ nNaught c.error_margin c.confidence + (blocksOf c len : ℚ) - 1) with he | h
    · exfalso
      unfold cochran at hxpos
      rw [← he, div_zero] at hxpos
      exact lt_irrefl 0 hxpos
    · exact h
  have hxB : cochran (blocksOf c len) c.error_margin c.confidence ≤ (blocksOf c len : ℚ) := by
    unfold cochran
    rw [div_le_iff hd]
    nlinarith [hB1, hn0]
  have hceil : ⌈cochran (blocksOf c len) c.error_margin c.confidence⌉ ≤ (blocksOf c len : ℤ) := by
    have := Int.ceil_mono hxB
    rwa [Int.ceil_natCast] at this
  omega

theorem sampling_offset_bound (c : Compresstimator) (len j : ℕ)
    (hs : samplesOf c len ≠ 0) (hj : j < samplesOf c len) :
    stepOf c len * j + c.block_size ≤ len := by
  have hsB : samplesOf c len ≤ blocksOf c len := samplesOf_le_blocksOf c len hs
  have hq1 : 1 ≤ blocksOf c len / samplesOf c len :=
    (Nat.one_le_div_iff (Nat.pos_of_ne_zero hs)).mpr hsB
  have hqs : blocksOf c len / samplesOf c len * samplesOf c len ≤ blocksOf c len :=
    Nat.div_mul_le_self _ _
  have hBbs : c.block_size * blocksOf c len ≤ len := by
    have h := Nat.div_mul_le_self len c.block_size
    calc c.block_size * blocksOf c len = len / c.block_size * c.block_size := by
          rw [blocksOf, mul_comm]
      _ ≤ len := h
  have hkey : blocksOf c len / samplesOf c len * j + 1 ≤
      blocksOf c len / samplesOf c len * samplesOf c len := by
    calc blocksOf c len / samplesOf c len * j + 1
        ≤ blocksOf c len / samplesOf c len * j + blocksOf c len / samplesOf c len := by omega
      _ = blocksOf c len / samplesOf c len * (j + 1) := by ring
      _ ≤ blocksOf c len / samplesOf c len * samplesOf c len := Nat.mul_le_mul_left _ hj
  calc stepOf c len * j + c.block_size
      = c.block_size * (blocksOf c len / samplesOf c len * j + 1) := by rw [stepOf]; ring
    _ ≤ c.block_size * (blocksOf c len / samplesOf c len * samplesOf c len) :=
        Nat.mul_le_mul_left _ hkey
    _ ≤ c.block_size * blocksOf c len := Nat.mul_le_mul_left _ hqs
    _ ≤ len := hBbs

/-- C10: whenever the sampling branch is taken the sample count lies between
1 and the block count, the quotient blocks / samples and hence the stride
are nonzero (the stride is at least one block size), every sampled interval
of block_size bytes starting at an offset of sampleOffsets stays within the
first len bytes, and on a stream that genuinely holds len bytes the
short-read error branch is unreachable. -/
theorem c10_sampling_invariants (comp : List ℕ → ℕ) (c : Compresstimator)
    (data : List ℕ) (pos len : ℕ)
    (hbs : 0 < c.block_size)
    (hs : samplesOf c len ≠ 0)
    (hlen : samplesOf c len * c.block_size * 4 ≤ len)
    (hdata : len ≤ data.length) :
    1 ≤ samplesOf c len ∧
    samplesOf c len ≤ blocksOf c len ∧
    1 ≤ blocksOf c len / samplesOf c len ∧
    c.block_size ≤ stepOf c len ∧
    (sampleOffsets c len).all (fun off => decide (off + c.block_size ≤ len)) = true ∧
    compresstimate_len comp c data pos len ≠ .readError := by
  have h1 : 1 ≤ samplesOf c len := Nat.pos_of_ne_zero hs
  have h2 := samplesOf_le_blocksOf c len hs
  have h3 : 1 ≤ blocksOf c len / samplesOf c len := (Nat.one_le_div_iff h1).mpr h2
  have h4 : c.block_size ≤ stepOf c len := by
    calc c.block_size = c.block_size * 1 := (mul_one _).symm
      _ ≤ c.block_size * (blocksOf c len / samplesOf c len) := Nat.mul_le_mul_left _ h3
      _ = stepOf c len := rfl
  have hoff : ∀ j, j < samplesOf c len → stepOf c len * j + c.block_size ≤ len :=
    fun j hj => sampling_offset_bound c len j hs hj
  have h5 : (sampleOffsets c len).all (fun off => decide (off + c.block_size ≤ len)) = true := by
    rw [List.all_eq_true]
    intro off hmem
    simp only [sampleOffsets, List.mem_map, List.mem_range] at hmem
    obtain ⟨j, hj, rfl⟩ := hmem
    simpa using hoff j hj
  refine ⟨h1, h2, h3, h4, h5, ?_⟩
  obtain ⟨l, hl⟩ := readBlocksAux_total data c.block_size (stepOf c len) (samplesOf c len) 0
    (fun j hj => by
      have h := hoff j hj
      rw [Nat.zero_add]
      omega)
  unfold compresstimate_len
  rw [if_neg (Nat.pos_iff_ne_zero.mp hbs),
    if_neg (by push_neg; exact ⟨hs, hlen⟩ :
      ¬(samplesOf c len = 0 ∨ len < samplesOf c len * c.block_size * 4)), hl]
  simp

/-- Witness for C10: block size 1, margin 49/50, confidence 80 percent on
an 8-byte stream takes the sampling branch with exactly one sample. -/
theorem c10_witness :
    1 ≤ samplesOf ⟨1, 49/50, .C80⟩ 8 ∧
    samplesOf ⟨1, 49/50, .C80⟩ 8 ≤ blocksOf ⟨1, 49/50, .C80⟩ 8 ∧
    1 ≤ blocksOf ⟨1, 49/50, .C80⟩ 8 / samplesOf ⟨1, 49/50, .C80⟩ 8 ∧
    (1 : ℕ) ≤ stepOf ⟨1, 49/50, .C80⟩ 8 ∧
    (sampleOffsets ⟨1, 49/50, .C80⟩ 8).all (fun off => decide (off + (1 : ℕ) ≤ 8)) = true ∧
    compresstimate_len (fun l => l.length) ⟨1, 49/50, .C80⟩ [0, 0, 0, 0, 0, 0, 0, 0] 0 8 ≠
      .readError := by
  have hsamples : samplesOf ⟨1, 49/50, .C80⟩ 8 = 1 :=
    samplesOf_eval _ _ 1 (by norm_num [cochran, nNaught, zScore, blocksOf])
      (by norm_num [cochran, nNaught, zScore, blocksOf])
  exact c10_sampling_invariants (fun l => l.length) ⟨1, 49/50, .C80⟩
    [0, 0, 0, 0, 0, 0, 0, 0] 0 8 (by norm_num) (by rw [hsamples]; exact one_ne_zero)
    (by rw [hsamples]; norm_num) (by norm_num)

/-- Counterexample for C4: with block size 1, margin 49/50 and confidence
80 percent, an 8-byte stream starting at position 1 of a 9-byte resource
takes the sampling branch with one sample and stride 8.  The sampler seeks
with SeekFrom::Start, so the byte it feeds is the resource byte at absolute
offset step * 0 = 0, namely 7 — not the byte at offset step * 0 relative to
the stream's starting position, which is 9.  Hence the claim that the
sampler seeks to step * i relative to the stream's starting offset fails. -/
theorem c4_counterexample :
    sampledInput ⟨1, 49/50, .C80⟩ [7, 9, 9, 9, 9, 9, 9, 9, 9] 1 8 = some [7] ∧
    ((([7, 9, 9, 9, 9, 9, 9, 9, 9] : List ℕ).drop 1).drop
      (stepOf ⟨1, 49/50, .C80⟩ 8 * 0)).take 1 = [9] ∧
    ([7] : List ℕ) ≠ [9] := by
  have hsamples : samplesOf ⟨1, 49/50, .C80⟩ 8 = 1 :=
    samplesOf_eval _ _ 1 (by norm_num [cochran, nNaught, zScore, blocksOf])
      (by norm_num [cochran, nNaught, zScore, blocksOf])
  have hstep : stepOf ⟨1, 49/50, .C80⟩ 8 = 8 := by
    simp [stepOf, hsamples, blocksOf]
  refine ⟨?_, by rw [hstep]; decide, by decide⟩
  rw [sampledInput, hsamples, hstep]
  norm_num [readBlocksAux]

/-- C4 (amended): in the sampling branch the sampler seeks to the absolute
offsets step * i of the underlying resource for i in 0..samples (these
coincide with offsets relative to the stream's starting position only when
that position is 0), reads exactly block_size bytes at each, and the bytes
fed to the compressor total exactly block_size * samples. -/
theorem c4_sampling_reads (c : Compresstimator) (data : List ℕ) (pos len : ℕ)
    (fed : List ℕ) (hbs : c.block_size ≠ 0)
    (hs : samplesOf c len ≠ 0)
    (hlen : samplesOf c len * c.block_size * 4 ≤ len)
    (hfed : sampledInput c data pos len = some fed) :
    sampleOffsets c len = (List.range (samplesOf c len)).map (fun i => stepOf c len * i) ∧
    fed = ((sampleOffsets c len).map (fun off => (data.drop off).take c.block_size)).flatten ∧
    fed.length = c.block_size * samplesOf c len ∧
    (sampleOffsets c len).all (fun off => decide (off + c.block_size ≤ data.length)) = true := by
  have hfed2 : readBlocksAux data c.block_size (stepOf c len) 0 (samplesOf c len) = some fed := by
    rw [sampledInput, if_neg hbs,
      if_neg (by push_neg; exact ⟨hs, hlen⟩ :
        ¬(samplesOf c len = 0 ∨ len < samplesOf c len * c.block_size * 4))] at hfed
    exact hfed
  obtain ⟨hj, hl, hb⟩ := readBlocksAux_ok data c.block_size (stepOf c len)
    (samplesOf c len) 0 fed hfed2
  refine ⟨rfl, ?_, hl, ?_⟩
  · rw [hj, sampleOffsets, List.map_map]
    have hfun : (fun j => List.take c.block_size (List.drop (stepOf c len * (0 + j)) data)) =
        ((fun off => List.take c.block_size (List.drop off data)) ∘ fun i => stepOf c len * i) := by
      funext j
      simp [Function.comp]
    rw [hfun]
  · rw [List.all_eq_true]
    intro off hmem
    simp only [sampleOffsets, List.mem_map, List.mem_range] at hmem
    obtain ⟨j, hjlt, rfl⟩ := hmem
    have := hb j hjlt
    simpa using this

/-- Witness for the amended C4 at block size 1, margin 49/50, confidence
80 percent on a 9-byte resource read from position 0. -/
theorem c4_witness :
    sampleOffsets ⟨1, 49/50, .C80⟩ 8 =
      (List.range (samplesOf ⟨1, 49/50, .C80⟩ 8)).map (fun i => stepOf ⟨1, 49/50, .C80⟩ 8 * i) ∧
    [7] = ((sampleOffsets ⟨1, 49/50, .C80⟩ 8).map
      (fun off => (([7, 9, 9, 9, 9, 9, 9, 9, 9] : List ℕ).drop off).take 1)).flatten ∧
    ([7] : List ℕ).length = 1 * samplesOf ⟨1, 49/50, .C80⟩ 8 ∧
    (sampleOffsets ⟨1, 49/50, .C80⟩ 8).all
      (fun off => decide (off + 1 ≤ ([7, 9, 9, 9, 9, 9, 9, 9, 9] : List ℕ).length)) = true := by
  have hsamples : samplesOf ⟨1, 49/50, .C80⟩ 8 = 1 :=
    samplesOf_eval _ _ 1 (by norm_num [cochran, nNaught, zScore, blocksOf])
      (by norm_num [cochran, nNaught, zScore, blocksOf])
  have hstep : stepOf ⟨1, 49/50, .C80⟩ 8 = 8 := by
    simp [stepOf, hsamples, blocksOf]
  have hfed : sampledInput ⟨1, 49/50, .C80⟩ [7, 9, 9, 9, 9, 9, 9, 9, 9] 0 8 = some [7] := by
    rw [sampledInput, hsamples, hstep]
    norm_num [readBlocksAux]
  exact c4_sampling_reads ⟨1, 49/50, .C80⟩ [7, 9, 9, 9, 9, 9, 9, 9, 9] 0 8 [7]
    (by norm_num) (by rw [hsamples]; exact one_ne_zero) (by rw [hsamples]; norm_num) hfed
